import Mathlib

/-!
Verification of the workflow-reference extraction and aggregation pipeline of
`list_github_workflows.py` against its natural-language specification.

The script is embedded shallowly:

* A parsed YAML document (the result of `yaml.safe_load`) is the mutual
  inductive `Yaml` / `YFields` / `YSeq`: scalars are either strings (the only
  scalars the extractor inspects) or the opaque `Yaml.scalar`; mappings are
  ordered field lists (Python dicts preserve insertion order); sequences are
  ordered item lists.
* Python's mutable `set` accumulator `uses_references` is modelled as a
  duplicate-free `List String` threaded through the recursion; `set.add` is
  `pyAdd`.  The list order determinizes the (unspecified) iteration order of a
  Python set; no theorem below depends on that order except through concrete
  singleton sets, for which every order coincides.
* Python dicts used as finite maps (`all_uses`, `results`, `action_counts`)
  are association lists with Python's assignment semantics (`dictInsert`:
  update in place if the key is present, append otherwise).
* A file that fails to decode (`yaml.safe_load` raising, or `open` failing,
  e.g. on a directory) is the `none` case of `Option Yaml`.
-/

mutual
/-- A decoded YAML value (the result of `yaml.safe_load`). `str` is a scalar
string; `scalar` is any other scalar (number, boolean, null, ...); `map` is a
mapping with insertion-ordered fields; `seq` is a sequence. -/
inductive Yaml where
  | str (s : String)
  | scalar
  | map (entries : YFields)
  | seq (items : YSeq)
deriving DecidableEq

/-- The insertion-ordered fields of a YAML mapping. -/
inductive YFields where
  | nil
  | cons (key : String) (val : Yaml) (rest : YFields)
deriving DecidableEq

/-- The items of a YAML sequence. -/
inductive YSeq where
  | nil
  | cons (head : Yaml) (rest : YSeq)
deriving DecidableEq
end

/-- The fields of a mapping as a list of key/value pairs. -/
def YFields.toList : YFields → List (String × Yaml)
  | .nil => []
  | .cons k v rest => (k, v) :: rest.toList

/-- The items of a sequence as a list. -/
def YSeq.toList : YSeq → List Yaml
  | .nil => []
  | .cons x rest => x :: rest.toList

/-- Build a mapping's fields from a list (convenience for concrete documents). -/
def yfields (l : List (String × Yaml)) : YFields :=
  l.foldr (fun kv r => .cons kv.1 kv.2 r) .nil

/-- Build a sequence's items from a list (convenience for concrete documents). -/
def yseq (l : List Yaml) : YSeq :=
  l.foldr (fun x r => .cons x r) .nil

/-- `isinstance(content, dict)`. -/
def isDict : Yaml → Bool
  | .map _ => true
  | _ => false

/-- `value.startswith('./')` of the source: Python compares the first two
code points of the string with `.` and `/`. -/
def startswith_local (s : String) : Bool :=
  decide (s.data.take 2 = ['.', '/'])

/-- `uses_references.add(s)` on the insertion-ordered model of a Python set:
a no-op when `s` is already present. -/
def pyAdd (acc : List String) (s : String) : List String :=
  if s ∈ acc then acc else acc ++ [s]

mutual
/-- The recursive helper `find_uses` of `extract_uses_from_workflow`
(src lines 113-124), with the mutated set passed explicitly as `acc`. -/
def find_uses (obj : Yaml) (acc : List String) : List String :=
  match obj with
  | .str _ => acc
  | .scalar => acc
  | .map entries => find_uses_fields entries acc
  | .seq items => find_uses_seq items acc

/-- `for key, value in obj.items(): ...` — the source's conjunction
`if key == 'uses' and isinstance(value, str)` is case-split here: a string
value under `uses` is conditionally recorded, every other key/value pair
falls into the `else: find_uses(value)` branch. -/
def find_uses_fields (fs : YFields) (acc : List String) : List String :=
  match fs with
  | .nil => acc
  | .cons k v rest =>
      find_uses_fields rest
        (if k = "uses" then
          match v with
          | .str s => if startswith_local s then acc else pyAdd acc s
          | _ => find_uses v acc
        else find_uses v acc)

/-- `for item in obj: find_uses(item)`. -/
def find_uses_seq (xs : YSeq) (acc : List String) : List String :=
  match xs with
  | .nil => acc
  | .cons x rest => find_uses_seq rest (find_uses x acc)
end

/-- The effect of one key/value pair on the accumulator (the body of the loop
in `find_uses`), named so that `find_uses_fields` has a clean unfolding. -/
def fieldStep (k : String) (v : Yaml) (acc : List String) : List String :=
  if k = "uses" then
    match v with
    | .str s => if startswith_local s then acc else pyAdd acc s
    | _ => find_uses v acc
  else find_uses v acc

/-- `extract_uses_from_workflow` (src lines 101-131) together with whether the
per-file warning (`print("Error parsing workflow file ...")`) is emitted.
`none` models a file whose open/decode raises: the `except` branch prints the
warning and the initial empty set is returned.  A decoded non-mapping top
level returns the empty set silently; a mapping is traversed by `find_uses`. -/
def extract_run (decoded : Option Yaml) : List String × Bool :=
  match decoded with
  | none => ([], true)
  | some content =>
      if isDict content = false then ([], false)
      else (find_uses content [], false)

/-- The reference set returned by `extract_uses_from_workflow`. -/
def extract_uses_from_workflow (decoded : Option Yaml) : List String :=
  (extract_run decoded).1

/-- A direct child of a repository's `.github/workflows` directory: a regular
file with its decode outcome (`none` = malformed), or a subdirectory with its
own children. -/
inductive FSEntry where
  | file (name : String) (doc : Option Yaml)
  | dir (name : String) (children : List FSEntry)

/-- The name `os.listdir` reports for an entry. -/
def entryName : FSEntry → String
  | .file n _ => n
  | .dir n _ => n

/-- Opening and decoding the entry called `name`: a missing entry or a
subdirectory fails to read (the `open`/`safe_load` raises, giving the
extractor's `except` branch), a file yields its decode outcome. -/
def readDoc : List FSEntry → String → Option Yaml
  | [], _ => none
  | .file n d :: rest, name => if n = name then d else readDoc rest name
  | .dir n _ :: rest, name => if n = name then none else readDoc rest name

/-- Python `s.endswith(suf)`: the last `len(suf)` code points equal `suf`. -/
def endswith (s suf : String) : Bool :=
  decide (s.data.drop (s.data.length - suf.data.length) = suf.data ∧
    suf.data.length ≤ s.data.length)

/-- `file.endswith(('.yml', '.yaml'))`. -/
def is_workflow_name (n : String) : Bool :=
  endswith n ".yml" || endswith n ".yaml"

/-- `find_workflow_files` (src lines 86-98): `none` models an absent
`.github/workflows` directory (`os.path.exists` false), `some entries` its
direct children as listed by `os.listdir`. -/
def find_workflow_files (dir : Option (List FSEntry)) : List String :=
  match dir with
  | none => []
  | some entries =>
      entries.foldl
        (fun acc e =>
          if is_workflow_name (entryName e) then acc ++ [entryName e] else acc)
        []

/-- Python dict assignment `d[k] = v`: update in place when the key is
present, append otherwise. -/
def dictInsert {V : Type} (d : List (String × V)) (k : String) (v : V) :
    List (String × V) :=
  if d.any (fun kv => decide (kv.1 = k)) then
    d.map (fun kv => if kv.1 = k then (kv.1, v) else kv)
  else d ++ [(k, v)]

/-- Python dict lookup `d[k]`. -/
def dictLookup {V : Type} (d : List (String × V)) (k : String) : Option V :=
  match d with
  | [] => none
  | kv :: rest => if kv.1 = k then some kv.2 else dictLookup rest k

/-- `analyze_repository_workflows` (src lines 134-152), taking the
repository's `.github/workflows` directory.  An absent directory gives no
workflow files, hence the early `return {}`; otherwise each located file is
extracted and recorded only when its reference set is non-empty
(`if uses_refs:`). -/
def analyze_repository_workflows (dir : Option (List FSEntry)) :
    List (String × List String) :=
  match dir with
  | none => []
  | some entries =>
      let workflow_files := find_workflow_files (some entries)
      if workflow_files.isEmpty then []
      else
        workflow_files.foldl
          (fun all_uses workflow_name =>
            let uses_refs := extract_uses_from_workflow (readDoc entries workflow_name)
            if uses_refs.isEmpty then all_uses
            else dictInsert all_uses workflow_name uses_refs)
          []

/-- A fetched working copy, reduced to the only part the pipeline reads:
its `.github/workflows` directory (`none` when that directory is absent). -/
structure Repo where
  workflows_dir : Option (List FSEntry)

/-- The per-repository step of `main`'s loop (src lines 254-265): a failed
clone (`shallow_clone_repo` returning the empty sentinel) records an empty
mapping, a successful one records the analysis of its working copy. -/
def processRepo (fetch : String → Option Repo) (r : String) :
    List (String × List String) :=
  match fetch r with
  | none => []
  | some repo => analyze_repository_workflows repo.workflows_dir

/-- The aggregate `results` dict built by `main`'s loop:
`results[repo_name] = ...` for each listed repository in order. -/
def buildResults (repos : List String) (fetch : String → Option Repo) :
    List (String × List (String × List String)) :=
  repos.foldl (fun results r => dictInsert results r (processRepo fetch r)) []

/-- How a run of `main` ends: an early exit with the printed message and the
process exit status, or a full run handing `results` to `generate_report`. -/
inductive MainOutcome where
  | earlyExit (msg : String) (code : Nat)
  | report (results : List (String × List (String × List String)))

/-- `main` (src lines 219-268) after argument parsing: the two tool checks
call `sys.exit(1)`; an empty repository list prints `"No repositories
found!"` and executes a plain `return`, after which the interpreter
terminates normally, i.e. with exit status 0. -/
def main_run (gh_available git_available : Bool) (repos : List String)
    (fetch : String → Option Repo) : MainOutcome :=
  if gh_available = false then
    .earlyExit "Error: 'gh' command not found. Please install GitHub CLI." 1
  else if git_available = false then
    .earlyExit "Error: 'git' command not found. Please install Git." 1
  else if repos = [] then .earlyExit "No repositories found!" 0
  else .report (buildResults repos fetch)

/-- `total_workflows = sum(len(workflows) for workflows in results.values())`
(src line 164). -/
def total_workflows (results : List (String × List (String × List String))) : Nat :=
  (results.map (fun rv => rv.2.length)).sum

/-- How many times the detailed-results loop of `generate_report`
(src lines 191-198) takes its `else` branch and prints `"No external
actions"`: one per stored per-file entry whose reference set is empty. -/
def no_external_count (results : List (String × List (String × List String))) : Nat :=
  (results.map (fun rv => (rv.2.filter (fun p => p.2.isEmpty)).length)).sum

/-- `action_counts[action] = action_counts.get(action, 0) + 1`
(src line 210). -/
def bumpCount (d : List (String × Nat)) (k : String) : List (String × Nat) :=
  if d.any (fun kv => decide (kv.1 = k)) then
    d.map (fun kv => if kv.1 = k then (kv.1, kv.2 + 1) else kv)
  else d ++ [(k, 1)]

/-- The `action_counts` dict of `generate_report` (src lines 206-210): every
reference of every stored per-file set, in iteration order. -/
def action_counts (results : List (String × List (String × List String))) :
    List (String × Nat) :=
  results.foldl
    (fun d rv => rv.2.foldl (fun d fw => fw.2.foldl (fun d a => bumpCount d a) d) d)
    []

/-- Stable descending insertion by count: the incoming element goes in front
of the first element whose count it reaches.  Folded over the list from the
right this realizes exactly the guarantees of Python's
`sorted(..., key=lambda x: x[1], reverse=True)` (src line 213): sorted by
descending count, a permutation, and stable (equal counts keep their original
relative order) — which determine the output uniquely. -/
def insertDesc (x : String × Nat) : List (String × Nat) → List (String × Nat)
  | [] => [x]
  | y :: ys => if y.2 ≤ x.2 then x :: y :: ys else y :: insertDesc x ys

/-- `sorted(action_counts.items(), key=lambda x: x[1], reverse=True)`. -/
def sortByCountDesc (l : List (String × Nat)) : List (String × Nat) :=
  l.foldr insertDesc []

/-- The `sorted_actions` ranking of `generate_report` (src line 213). -/
def sorted_actions (results : List (String × List (String × List String))) :
    List (String × Nat) :=
  sortByCountDesc (action_counts results)

/-- `s` occurs as the scalar-string value of a `uses` key somewhere in the
document, the path to it passing only through keys other than `uses`
(the occurrence notion of the depth-invariance claim). -/
inductive UsesAt : Yaml → String → Prop where
  | here {fs : YFields} {s : String} :
      ("uses", Yaml.str s) ∈ fs.toList → UsesAt (.map fs) s
  | inMap {fs : YFields} {k : String} {v : Yaml} {s : String} :
      (k, v) ∈ fs.toList → k ≠ "uses" → UsesAt v s → UsesAt (.map fs) s
  | inSeq {xs : YSeq} {v : Yaml} {s : String} :
      v ∈ xs.toList → UsesAt v s → UsesAt (.seq xs) s

/-- `s` occurs as the scalar-string value of a `uses` key somewhere in the
document, with no restriction on the keys along the path. -/
inductive UsesVal : Yaml → String → Prop where
  | here {fs : YFields} {s : String} :
      ("uses", Yaml.str s) ∈ fs.toList → UsesVal (.map fs) s
  | inMap {fs : YFields} {k : String} {v : Yaml} {s : String} :
      (k, v) ∈ fs.toList → UsesVal v s → UsesVal (.map fs) s
  | inSeq {xs : YSeq} {v : Yaml} {s : String} :
      v ∈ xs.toList → UsesVal v s → UsesVal (.seq xs) s

/-! ### Concrete example data used in witnesses and counterexamples -/

/-- The aggregate result `{"org/repo": {"f1.yml": {"b@v1"}, "f2.yml": {"a@v1"}}}`:
two references with tied counts, first encountered in non-lexicographic order. -/
def c1_results : List (String × List (String × List String)) :=
  [("org/repo", [("f1.yml", ["b@v1"]), ("f2.yml", ["a@v1"])])]

/-- The document `{uses: {uses: "x"}}`: its only string-valued `uses` entry
lies strictly inside the value of an enclosing `uses` key. -/
def c3_doc : Yaml :=
  .map (yfields [("uses", .map (yfields [("uses", .str "x")]))])

/-- One step of `c4_fields`: `{uses: "actions/checkout@v4", with: {ref: "main"}}`. -/
def c4_step : Yaml :=
  .map (yfields [("uses", .str "actions/checkout@v4"),
    ("with", .map (yfields [("ref", .str "main")]))])

/-- The `steps` sequence of `c4_fields`. -/
def c4_steps : Yaml := .seq (yseq [.scalar, c4_step])

/-- The `build` job of `c4_fields`. -/
def c4_build : Yaml := .map (yfields [("steps", c4_steps)])

/-- The `jobs` mapping of `c4_fields`. -/
def c4_jobs : Yaml := .map (yfields [("build", c4_build)])

/-- Top-level fields of a workflow with a reference nested four levels deep,
inside both mappings and a sequence. -/
def c4_fields : YFields := yfields [("on", .scalar), ("jobs", c4_jobs)]

/-- A workflow with one external and one local (`./`-prefixed) reference. -/
def c5_doc : Yaml :=
  .map (yfields [("steps", .seq (yseq
    [.map (yfields [("uses", .str "actions/checkout@v4")]),
     .map (yfields [("uses", .str "./local/action")])]))])

/-- A step `{uses: "actions/checkout@v4"}`. -/
def c6_step : Yaml := .map (yfields [("uses", .str "actions/checkout@v4")])

/-- A workflow in which two distinct steps declare the same reference. -/
def c6_doc : Yaml :=
  .map (yfields [("jobs", .map (yfields [("build",
    .map (yfields [("steps", .seq (yseq [c6_step, c6_step]))]))]))])

/-- A lister/fetcher scenario: `org/a` clones but has no workflow directory,
`org/b` fails to clone. -/
def c8_fetch : String → Option Repo :=
  fun r => if r = "org/a" then some ⟨none⟩ else none

/-- A workflow directory with one matching file, one nested subdirectory
holding a matching name, and one non-matching file. -/
def c9_entries : List FSEntry :=
  [.file "ci.yml" none, .dir "nested" [.file "inner.yml" none],
   .file "readme.md" none]

/-- A workflow directory whose subdirectory contains a `.yml` file. -/
def c9_sub_a : List FSEntry :=
  [.dir "sub" [.file "x.yml" none], .file "build.yaml" none]

/-- The same directory with different nested contents (same direct names). -/
def c9_sub_b : List FSEntry :=
  [.dir "sub" [], .file "build.yaml" (some .scalar)]

/-- A workflow directory where `a.yml` yields one reference and `b.yml`
(a non-mapping document) yields none. -/
def c10_entries : List FSEntry :=
  [.file "a.yml" (some (.map (yfields [("uses", .str "actions/cache@v3")]))),
   .file "b.yml" (some .scalar)]

/-! ### Unfolding lemmas for the extractor -/

theorem find_uses_str (s : String) (acc : List String) :
    find_uses (.str s) acc = acc := rfl

theorem find_uses_scalar (acc : List String) :
    find_uses .scalar acc = acc := rfl

theorem find_uses_map (es : YFields) (acc : List String) :
    find_uses (.map es) acc = find_uses_fields es acc := rfl

theorem find_uses_seq_eq (xs : YSeq) (acc : List String) :
    find_uses (.seq xs) acc = find_uses_seq xs acc := rfl

theorem fields_nil (acc : List String) :
    find_uses_fields .nil acc = acc := rfl

theorem fields_cons (k : String) (v : Yaml) (rest : YFields) (acc : List String) :
    find_uses_fields (.cons k v rest) acc = find_uses_fields rest (fieldStep k v acc) := by
  cases v <;> rfl

theorem seq_nil (acc : List String) : find_uses_seq .nil acc = acc := rfl

theorem seq_cons (x : Yaml) (rest : YSeq) (acc : List String) :
    find_uses_seq (.cons x rest) acc = find_uses_seq rest (find_uses x acc) := rfl

theorem mem_pyAdd (acc : List String) (s a : String) :
    a ∈ pyAdd acc s ↔ a ∈ acc ∨ a = s := by
  unfold pyAdd
  split
  · next hmem =>
      constructor
      · exact Or.inl
      · rintro (h | rfl)
        · exact h
        · exact hmem
  · simp [List.mem_append]

theorem pyAdd_nodup (acc : List String) (s : String) (h : acc.Nodup) :
    (pyAdd acc s).Nodup := by
  unfold pyAdd
  split
  · exact h
  · next hmem => simpa [List.nodup_append, h] using hmem

/-! ### Monotonicity: the accumulated set only grows -/

mutual
theorem find_uses_mono (obj : Yaml) (acc : List String) (a : String) (h : a ∈ acc) :
    a ∈ find_uses obj acc := by
  cases obj with
  | str s => rw [find_uses_str]; exact h
  | scalar => rw [find_uses_scalar]; exact h
  | map entries => rw [find_uses_map]; exact find_uses_fields_mono entries acc a h
  | seq items => rw [find_uses_seq_eq]; exact find_uses_seq_mono items acc a h

theorem find_uses_fields_mono (fs : YFields) (acc : List String) (a : String)
    (h : a ∈ acc) : a ∈ find_uses_fields fs acc := by
  cases fs with
  | nil => rw [fields_nil]; exact h
  | cons k v rest =>
      rw [fields_cons]
      refine find_uses_fields_mono rest _ a ?_
      unfold fieldStep
      split
      · cases v with
        | str s =>
            simp only
            split
            · exact h
            · exact (mem_pyAdd acc s a).mpr (Or.inl h)
        | scalar => exact find_uses_mono _ _ _ h
        | map es => exact find_uses_mono _ _ _ h
        | seq xs => exact find_uses_mono _ _ _ h
      · exact find_uses_mono v acc a h

theorem find_uses_seq_mono (xs : YSeq) (acc : List String) (a : String)
    (h : a ∈ acc) : a ∈ find_uses_seq xs acc := by
  cases xs with
  | nil => rw [seq_nil]; exact h
  | cons x rest =>
      rw [seq_cons]
      exact find_uses_seq_mono rest _ a (find_uses_mono x acc a h)
end

theorem fieldStep_mono (k : String) (v : Yaml) (acc : List String) (a : String)
    (h : a ∈ acc) : a ∈ fieldStep k v acc := by
  unfold fieldStep
  split
  · cases v with
    | str s =>
        simp only
        split
        · exact h
        · exact (mem_pyAdd acc s a).mpr (Or.inl h)
    | scalar => exact find_uses_mono _ _ _ h
    | map es => exact find_uses_mono _ _ _ h
    | seq xs => exact find_uses_mono _ _ _ h
  · exact find_uses_mono v acc a h

/-! ### The accumulated set stays duplicate-free -/

mutual
theorem find_uses_nodup (obj : Yaml) (acc : List String) (h : acc.Nodup) :
    (find_uses obj acc).Nodup := by
  cases obj with
  | str s => rw [find_uses_str]; exact h
  | scalar => rw [find_uses_scalar]; exact h
  | map entries => rw [find_uses_map]; exact find_uses_fields_nodup entries acc h
  | seq items => rw [find_uses_seq_eq]; exact find_uses_seq_nodup items acc h

theorem find_uses_fields_nodup (fs : YFields) (acc : List String) (h : acc.Nodup) :
    (find_uses_fields fs acc).Nodup := by
  cases fs with
  | nil => rw [fields_nil]; exact h
  | cons k v rest =>
      rw [fields_cons]
      refine find_uses_fields_nodup rest _ ?_
      unfold fieldStep
      split
      · cases v with
        | str s =>
            simp only
            split
            · exact h
            · exact pyAdd_nodup acc s h
        | scalar => exact find_uses_nodup _ _ h
        | map es => exact find_uses_nodup _ _ h
        | seq xs => exact find_uses_nodup _ _ h
      · exact find_uses_nodup v acc h

theorem find_uses_seq_nodup (xs : YSeq) (acc : List String) (h : acc.Nodup) :
    (find_uses_seq xs acc).Nodup := by
  cases xs with
  | nil => rw [seq_nil]; exact h
  | cons x rest =>
      rw [seq_cons]
      exact find_uses_seq_nodup rest _ (find_uses_nodup x acc h)
end

/-! ### Soundness and completeness of the traversal w.r.t. occurrences -/

theorem yfields_toList_cons (k : String) (v : Yaml) (rest : YFields) :
    (YFields.cons k v rest).toList = (k, v) :: rest.toList := rfl

theorem yseq_toList_cons (x : Yaml) (rest : YSeq) :
    (YSeq.cons x rest).toList = x :: rest.toList := rfl

theorem UsesVal_map_weaken (k : String) (v : Yaml) (rest : YFields) (a : String)
    (h : UsesVal (.map rest) a) : UsesVal (.map (.cons k v rest)) a := by
  cases h with
  | here hm =>
      exact UsesVal.here (by rw [yfields_toList_cons]; exact List.mem_cons_of_mem _ hm)
  | inMap hm hv =>
      exact UsesVal.inMap (by rw [yfields_toList_cons]; exact List.mem_cons_of_mem _ hm) hv

theorem UsesVal_seq_weaken (x : Yaml) (rest : YSeq) (a : String)
    (h : UsesVal (.seq rest) a) : UsesVal (.seq (.cons x rest)) a := by
  cases h with
  | inSeq hm hv =>
      exact UsesVal.inSeq (by rw [yseq_toList_cons]; exact List.mem_cons_of_mem _ hm) hv

mutual
theorem find_uses_sound (obj : Yaml) (acc : List String) (a : String)
    (h : a ∈ find_uses obj acc) :
    a ∈ acc ∨ (UsesVal obj a ∧ startswith_local a = false) := by
  cases obj with
  | str s => rw [find_uses_str] at h; exact Or.inl h
  | scalar => rw [find_uses_scalar] at h; exact Or.inl h
  | map entries => rw [find_uses_map] at h; exact find_uses_fields_sound entries acc a h
  | seq items => rw [find_uses_seq_eq] at h; exact find_uses_seq_sound items acc a h

theorem find_uses_fields_sound (fs : YFields) (acc : List String) (a : String)
    (h : a ∈ find_uses_fields fs acc) :
    a ∈ acc ∨ (UsesVal (.map fs) a ∧ startswith_local a = false) := by
  cases fs with
  | nil => rw [fields_nil] at h; exact Or.inl h
  | cons k v rest =>
      rw [fields_cons] at h
      rcases find_uses_fields_sound rest _ a h with hstep | ⟨hv, hl⟩
      · by_cases hk : k = "uses"
        · subst hk
          cases v with
          | str s =>
              unfold fieldStep at hstep
              rw [if_pos rfl] at hstep
              simp only at hstep
              by_cases hls : startswith_local s
              · rw [if_pos hls] at hstep
                exact Or.inl hstep
              · rw [if_neg hls] at hstep
                rcases (mem_pyAdd acc s a).mp hstep with hacc | rfl
                · exact Or.inl hacc
                · refine Or.inr ⟨UsesVal.here ?_, by simpa using hls⟩
                  rw [yfields_toList_cons]
                  exact List.mem_cons_self _ _
          | scalar =>
              unfold fieldStep at hstep
              rw [if_pos rfl] at hstep
              rcases find_uses_sound _ acc a hstep with hacc | ⟨hv, hl⟩
              · exact Or.inl hacc
              · refine Or.inr ⟨UsesVal.inMap (k := "uses") ?_ hv, hl⟩
                rw [yfields_toList_cons]
                exact List.mem_cons_self _ _
          | map es =>
              unfold fieldStep at hstep
              rw [if_pos rfl] at hstep
              rcases find_uses_sound _ acc a hstep with hacc | ⟨hv, hl⟩
              · exact Or.inl hacc
              · refine Or.inr ⟨UsesVal.inMap (k := "uses") ?_ hv, hl⟩
                rw [yfields_toList_cons]
                exact List.mem_cons_self _ _
          | seq xs =>
              unfold fieldStep at hstep
              rw [if_pos rfl] at hstep
              rcases find_uses_sound _ acc a hstep with hacc | ⟨hv, hl⟩
              · exact Or.inl hacc
              · refine Or.inr ⟨UsesVal.inMap (k := "uses") ?_ hv, hl⟩
                rw [yfields_toList_cons]
                exact List.mem_cons_self _ _
        · unfold fieldStep at hstep
          rw [if_neg hk] at hstep
          rcases find_uses_sound v acc a hstep with hacc | ⟨hv, hl⟩
          · exact Or.inl hacc
          · refine Or.inr ⟨UsesVal.inMap (k := k) ?_ hv, hl⟩
            rw [yfields_toList_cons]
            exact List.mem_cons_self _ _
      · exact Or.inr ⟨UsesVal_map_weaken k v rest a hv, hl⟩

theorem find_uses_seq_sound (xs : YSeq) (acc : List String) (a : String)
    (h : a ∈ find_uses_seq xs acc) :
    a ∈ acc ∨ (UsesVal (.seq xs) a ∧ startswith_local a = false) := by
  cases xs with
  | nil => rw [seq_nil] at h; exact Or.inl h
  | cons x rest =>
      rw [seq_cons] at h
      rcases find_uses_seq_sound rest _ a h with hstep | ⟨hv, hl⟩
      · rcases find_uses_sound x acc a hstep with hacc | ⟨hv, hl⟩
        · exact Or.inl hacc
        · refine Or.inr ⟨UsesVal.inSeq ?_ hv, hl⟩
          rw [yseq_toList_cons]
          exact List.mem_cons_self _ _
      · exact Or.inr ⟨UsesVal_seq_weaken x rest a hv, hl⟩
end

theorem fields_complete_here (fs : YFields) (t : String)
    (hm : ("uses", Yaml.str t) ∈ fs.toList) (hl : startswith_local t = false) :
    ∀ acc, t ∈ find_uses_fields fs acc := by
  cases fs with
  | nil => cases hm
  | cons k v rest =>
      intro acc
      rw [yfields_toList_cons] at hm
      rw [fields_cons]
      rcases List.mem_cons.mp hm with heq | htail
      · have hk : k = "uses" := congrArg Prod.fst heq.symm
        have hv : v = Yaml.str t := congrArg Prod.snd heq.symm
        refine find_uses_fields_mono rest _ t ?_
        unfold fieldStep
        rw [if_pos hk, hv]
        simp only
        rw [if_neg (by simp [hl])]
        exact (mem_pyAdd acc t t).mpr (Or.inr rfl)
      · exact fields_complete_here rest t htail hl _

theorem fields_complete_in (fs : YFields) (k : String) (v : Yaml) (s : String)
    (hm : (k, v) ∈ fs.toList) (hv : ∀ acc, s ∈ find_uses v acc) :
    ∀ acc, s ∈ find_uses_fields fs acc := by
  cases fs with
  | nil => cases hm
  | cons k' v' rest =>
      intro acc
      rw [yfields_toList_cons] at hm
      rw [fields_cons]
      rcases List.mem_cons.mp hm with heq | htail
      · have hk : k' = k := (congrArg Prod.fst heq).symm
        have hveq : v' = v := (congrArg Prod.snd heq).symm
        subst hk; subst hveq
        refine find_uses_fields_mono rest _ s ?_
        unfold fieldStep
        by_cases hu : k' = "uses"
        · rw [if_pos hu]
          cases v' with
          | str t =>
              have : s ∈ find_uses (.str t) [] := hv []
              rw [find_uses_str] at this
              cases this
          | scalar => exact hv acc
          | map es => exact hv acc
          | seq xs => exact hv acc
        · rw [if_neg hu]
          exact hv acc
      · exact fields_complete_in rest k v s htail hv _

theorem seq_complete_in (xs : YSeq) (v : Yaml) (s : String)
    (hm : v ∈ xs.toList) (hv : ∀ acc, s ∈ find_uses v acc) :
    ∀ acc, s ∈ find_uses_seq xs acc := by
  cases xs with
  | nil => cases hm
  | cons x rest =>
      intro acc
      rw [yseq_toList_cons] at hm
      rw [seq_cons]
      rcases List.mem_cons.mp hm with heq | htail
      · subst heq
        exact find_uses_seq_mono rest _ s (hv acc)
      · exact seq_complete_in rest v s htail hv _

theorem UsesVal_complete (obj : Yaml) (s : String) (h : UsesVal obj s)
    (hl : startswith_local s = false) : ∀ acc, s ∈ find_uses obj acc := by
  induction h with
  | here hm =>
      intro acc
      rw [find_uses_map]
      exact fields_complete_here _ _ hm hl acc
  | inMap hm _ ih =>
      intro acc
      rw [find_uses_map]
      exact fields_complete_in _ _ _ _ hm (ih hl) acc
  | inSeq hm _ ih =>
      intro acc
      rw [find_uses_seq_eq]
      exact seq_complete_in _ _ _ hm (ih hl) acc

theorem UsesAt_UsesVal (obj : Yaml) (s : String) (h : UsesAt obj s) :
    UsesVal obj s := by
  induction h with
  | here hm => exact UsesVal.here hm
  | inMap hm _ _ ih => exact UsesVal.inMap hm ih
  | inSeq hm _ ih => exact UsesVal.inSeq hm ih

/-! ### Dictionary (association list) lemmas -/

theorem dictInsert_cons_ne {V : Type} (kv : String × V) (d : List (String × V))
    (k : String) (v : V) (hne : kv.1 ≠ k) :
    dictInsert (kv :: d) k v = kv :: dictInsert d k v := by
  by_cases hd : d.any (fun kv' => decide (kv'.1 = k)) <;>
    simp [dictInsert, hne, hd]

theorem dictInsert_cons_eq {V : Type} (kv : String × V) (d : List (String × V))
    (k : String) (v : V) (heq : kv.1 = k) :
    dictInsert (kv :: d) k v =
      (kv.1, v) :: d.map (fun kv' => if kv'.1 = k then (kv'.1, v) else kv') := by
  simp [dictInsert, heq]

theorem dictLookup_dictInsert_self {V : Type} (d : List (String × V))
    (k : String) (v : V) : dictLookup (dictInsert d k v) k = some v := by
  induction d with
  | nil => simp [dictInsert, dictLookup]
  | cons kv rest ih =>
      by_cases h : kv.1 = k
      · rw [dictInsert_cons_eq kv rest k v h]
        simp [dictLookup, h]
      · rw [dictInsert_cons_ne kv rest k v h]
        simp [dictLookup, h, ih]

theorem dictLookup_map_ne {V : Type} (d : List (String × V)) (k k' : String)
    (v : V) (hne : k' ≠ k) :
    dictLookup (d.map (fun kv => if kv.1 = k then (kv.1, v) else kv)) k' =
      dictLookup d k' := by
  have hkk' : ¬k = k' := fun hc => hne hc.symm
  induction d with
  | nil => rfl
  | cons kv rest ih =>
      by_cases h : kv.1 = k
      · simp [dictLookup, h, hkk', ih]
      · by_cases h' : kv.1 = k' <;> simp [dictLookup, h, h', hne, ih]

theorem dictLookup_append_single {V : Type} (d : List (String × V))
    (k k' : String) (v : V) (hne : k' ≠ k) :
    dictLookup (d ++ [(k, v)]) k' = dictLookup d k' := by
  have hkk' : ¬k = k' := fun hc => hne hc.symm
  induction d with
  | nil => simp [dictLookup, hkk']
  | cons kv rest ih =>
      by_cases h : kv.1 = k' <;> simp [dictLookup, h, ih]

theorem dictLookup_dictInsert_ne {V : Type} (d : List (String × V))
    (k k' : String) (v : V) (hne : k' ≠ k) :
    dictLookup (dictInsert d k v) k' = dictLookup d k' := by
  unfold dictInsert
  split
  · exact dictLookup_map_ne d k k' v hne
  · exact dictLookup_append_single d k k' v hne

theorem mem_dictInsert_val {V : Type} (d : List (String × V)) (k : String)
    (v : V) (p : String × V) (h : p ∈ dictInsert d k v) : p ∈ d ∨ p.2 = v := by
  unfold dictInsert at h
  split at h
  · rcases List.mem_map.mp h with ⟨kv, hkv, heq⟩
    by_cases hk : kv.1 = k
    · right
      rw [if_pos hk] at heq
      rw [← heq]
    · left
      rw [if_neg hk] at heq
      rw [← heq]
      exact hkv
  · rcases List.mem_append.mp h with hd | hsingle
    · exact Or.inl hd
    · right
      rw [List.mem_singleton.mp hsingle]

theorem dictInsert_fresh {V : Type} (d : List (String × V)) (k : String)
    (v : V) (h : ∀ kv ∈ d, kv.1 ≠ k) : dictInsert d k v = d ++ [(k, v)] := by
  unfold dictInsert
  rw [if_neg]
  rw [Bool.not_eq_true, List.any_eq_false]
  intro kv hkv
  simpa using h kv hkv

/-! ### The aggregate `results` dictionary built by `main` -/

theorem buildLoop_lookup_not_mem (fetch : String → Option Repo)
    (l : List String) (d : List (String × List (String × List String)))
    (r : String) (hr : r ∉ l) :
    dictLookup (l.foldl (fun res x => dictInsert res x (processRepo fetch x)) d) r =
      dictLookup d r := by
  induction l generalizing d with
  | nil => rfl
  | cons a rest ih =>
      have hra : r ≠ a := fun hc => hr (hc ▸ List.mem_cons_self a rest)
      have hrr : r ∉ rest := fun hc => hr (List.mem_cons_of_mem a hc)
      rw [List.foldl_cons, ih _ hrr, dictLookup_dictInsert_ne _ _ _ _ hra]

theorem buildLoop_lookup_mem (fetch : String → Option Repo) (l : List String)
    (d : List (String × List (String × List String))) (r : String) (hr : r ∈ l) :
    dictLookup (l.foldl (fun res x => dictInsert res x (processRepo fetch x)) d) r =
      some (processRepo fetch r) := by
  induction l generalizing d with
  | nil => cases hr
  | cons a rest ih =>
      rw [List.foldl_cons]
      by_cases hrest : r ∈ rest
      · exact ih _ hrest
      · have hra : r = a := by
          rcases List.mem_cons.mp hr with h | h
          · exact h
          · exact absurd h hrest
        subst hra
        rw [buildLoop_lookup_not_mem fetch rest _ r hrest,
          dictLookup_dictInsert_self]

theorem buildResults_lookup (repos : List String) (fetch : String → Option Repo)
    (r : String) (hr : r ∈ repos) :
    dictLookup (buildResults repos fetch) r = some (processRepo fetch r) :=
  buildLoop_lookup_mem fetch repos [] r hr

theorem buildLoop_values (fetch : String → Option Repo) (l : List String)
    (d : List (String × List (String × List String)))
    (rv : String × List (String × List String))
    (h : rv ∈ l.foldl (fun res x => dictInsert res x (processRepo fetch x)) d) :
    rv ∈ d ∨ ∃ r, rv.2 = processRepo fetch r := by
  induction l generalizing d with
  | nil => exact Or.inl h
  | cons a rest ih =>
      rw [List.foldl_cons] at h
      rcases ih _ h with hmem | hex
      · rcases mem_dictInsert_val _ _ _ _ hmem with hd | hval
        · exact Or.inl hd
        · exact Or.inr ⟨a, hval⟩
      · exact Or.inr hex

theorem buildResults_values (repos : List String) (fetch : String → Option Repo)
    (rv : String × List (String × List String)) (h : rv ∈ buildResults repos fetch) :
    ∃ r, rv.2 = processRepo fetch r := by
  rcases buildLoop_values fetch repos [] rv h with hmem | hex
  · cases hmem
  · exact hex

/-! ### The document locator -/

theorem fwf_loop (l : List FSEntry) (init : List String) :
    l.foldl
        (fun acc e =>
          if is_workflow_name (entryName e) then acc ++ [entryName e] else acc)
        init =
      init ++ (l.map entryName).filter is_workflow_name := by
  induction l generalizing init with
  | nil => simp
  | cons e rest ih =>
      by_cases h : is_workflow_name (entryName e) <;>
        simp [List.filter_cons, h, ih, List.append_assoc]

theorem find_workflow_files_eq (entries : List FSEntry) :
    find_workflow_files (some entries) =
      (entries.map entryName).filter is_workflow_name := by
  rw [find_workflow_files]
  rw [fwf_loop]
  rfl

/-! ### The per-repository analysis -/

theorem analyze_loop_values (entries : List FSEntry) (files : List String)
    (d : List (String × List String)) (hd : ∀ p ∈ d, p.2 ≠ [])
    (p : String × List String)
    (h : p ∈ files.foldl
        (fun all_uses workflow_name =>
          let uses_refs := extract_uses_from_workflow (readDoc entries workflow_name)
          if uses_refs.isEmpty then all_uses
          else dictInsert all_uses workflow_name uses_refs)
        d) :
    p.2 ≠ [] := by
  induction files generalizing d with
  | nil => exact hd p h
  | cons n rest ih =>
      rw [List.foldl_cons] at h
      refine ih _ ?_ h
      intro q hq
      simp only at hq
      by_cases he : (extract_uses_from_workflow (readDoc entries n)).isEmpty
      · rw [if_pos he] at hq
        exact hd q hq
      · rw [if_neg he] at hq
        rcases mem_dictInsert_val _ _ _ _ hq with hmem | hval
        · exact hd q hmem
        · rw [hval]
          intro hc
          rw [hc] at he
          exact he rfl

theorem analyze_values (dir : Option (List FSEntry))
    (p : String × List String) (h : p ∈ analyze_repository_workflows dir) :
    p.2 ≠ [] := by
  cases dir with
  | none => cases h
  | some entries =>
      rw [analyze_repository_workflows] at h
      simp only at h
      split at h
      · cases h
      · exact analyze_loop_values entries _ [] (by intro q hq; cases hq) p h

theorem analyze_loop_eq (entries : List FSEntry) (files : List String)
    (d : List (String × List String)) (hn : files.Nodup)
    (hdisj : ∀ kv ∈ d, kv.1 ∉ files) :
    files.foldl
        (fun all_uses workflow_name =>
          let uses_refs := extract_uses_from_workflow (readDoc entries workflow_name)
          if uses_refs.isEmpty then all_uses
          else dictInsert all_uses workflow_name uses_refs)
        d =
      d ++ files.filterMap
        (fun n =>
          let uses_refs := extract_uses_from_workflow (readDoc entries n)
          if uses_refs.isEmpty then none else some (n, uses_refs)) := by
  induction files generalizing d with
  | nil => simp
  | cons n rest ih =>
      have hnr : n ∉ rest := (List.nodup_cons.mp hn).1
      have hrest : rest.Nodup := (List.nodup_cons.mp hn).2
      rw [List.foldl_cons, List.filterMap_cons]
      simp only
      by_cases he : (extract_uses_from_workflow (readDoc entries n)).isEmpty
      · rw [if_pos he, if_pos he]
        exact ih _ hrest fun kv hkv => fun hc =>
          hdisj kv hkv (List.mem_cons_of_mem n hc)
      · rw [if_neg he, if_neg he]
        rw [dictInsert_fresh _ _ _ fun kv hkv => fun hc =>
          hdisj kv hkv (hc ▸ List.mem_cons_self n rest)]
        rw [ih _ hrest ?_, List.append_assoc]
        · rfl
        · intro kv hkv
          rcases List.mem_append.mp hkv with hmem | hsingle
          · exact fun hc => hdisj kv hmem (List.mem_cons_of_mem n hc)
          · rw [List.mem_singleton.mp hsingle]
            exact hnr

theorem length_filterMap_eq_countP {α β : Type} (f : α → Option β) (l : List α) :
    (l.filterMap f).length = l.countP fun a => (f a).isSome := by
  induction l with
  | nil => rfl
  | cons x xs ih =>
      cases h : f x <;> simp [List.filterMap_cons, List.countP_cons, h, ih]

theorem analyze_length (entries : List FSEntry)
    (hn : ((entries.map entryName).filter is_workflow_name).Nodup) :
    (analyze_repository_workflows (some entries)).length =
      (find_workflow_files (some entries)).countP
        (fun n => !(extract_uses_from_workflow (readDoc entries n)).isEmpty) := by
  rw [analyze_repository_workflows]
  simp only
  have hfiles : find_workflow_files (some entries) =
      (entries.map entryName).filter is_workflow_name := find_workflow_files_eq entries
  split
  · next hempty =>
      rw [List.isEmpty_iff] at hempty
      rw [hfiles] at hempty ⊢
      rw [hempty]
      rfl
  · rw [analyze_loop_eq entries _ [] (hfiles ▸ hn) (by intro kv hkv; cases hkv)]
    rw [List.nil_append, length_filterMap_eq_countP]
    refine List.countP_congr ?_
    intro n _
    simp only
    by_cases he : (extract_uses_from_workflow (readDoc entries n)).isEmpty <;>
      simp [he]

/-! ### The frequency ranking sort -/

theorem insertDesc_perm (x : String × Nat) (ys : List (String × Nat)) :
    (insertDesc x ys).Perm (x :: ys) := by
  induction ys with
  | nil => exact List.Perm.refl _
  | cons y ys ih =>
      rw [insertDesc]
      split
      · exact List.Perm.refl _
      · exact (ih.cons y).trans (List.Perm.swap x y ys)

theorem mem_insertDesc (x b : String × Nat) (ys : List (String × Nat)) :
    b ∈ insertDesc x ys ↔ b = x ∨ b ∈ ys := by
  rw [(insertDesc_perm x ys).mem_iff, List.mem_cons]

theorem pairwise_insertDesc (x : String × Nat) (ys : List (String × Nat))
    (h : ys.Pairwise (fun a b => b.2 ≤ a.2)) :
    (insertDesc x ys).Pairwise (fun a b => b.2 ≤ a.2) := by
  induction ys with
  | nil => simp [insertDesc]
  | cons y ys ih =>
      rw [insertDesc]
      rcases List.pairwise_cons.mp h with ⟨hy, hys⟩
      split
      · next hc =>
          refine List.pairwise_cons.mpr ⟨?_, h⟩
          intro b hb
          rcases List.mem_cons.mp hb with rfl | hbys
          · exact hc
          · exact le_trans (hy b hbys) hc
      · next hc =>
          refine List.pairwise_cons.mpr ⟨?_, ih hys⟩
          intro b hb
          rcases (mem_insertDesc x b ys).mp hb with rfl | hbys
          · exact le_of_lt (lt_of_not_le hc)
          · exact hy b hbys

theorem filter_insertDesc (c : Nat) (x : String × Nat) (ys : List (String × Nat)) :
    (insertDesc x ys).filter (fun z => decide (z.2 = c)) =
      if x.2 = c then x :: ys.filter (fun z => decide (z.2 = c))
      else ys.filter (fun z => decide (z.2 = c)) := by
  induction ys with
  | nil =>
      by_cases hx : x.2 = c <;> simp [insertDesc, List.filter_cons, hx]
  | cons y ys ih =>
      rw [insertDesc]
      split
      · next hc =>
          by_cases hx : x.2 = c <;> simp [List.filter_cons, hx]
      · next hc =>
          by_cases hx : x.2 = c <;> by_cases hy : y.2 = c
          · exfalso
            exact hc (le_of_eq (hy.trans hx.symm))
          · simp [List.filter_cons, hx, hy, ih]
          · simp [List.filter_cons, hx, hy, ih]
          · simp [List.filter_cons, hx, hy, ih]

theorem sortByCountDesc_cons (x : String × Nat) (l : List (String × Nat)) :
    sortByCountDesc (x :: l) = insertDesc x (sortByCountDesc l) := rfl

theorem sortByCountDesc_perm (l : List (String × Nat)) :
    (sortByCountDesc l).Perm l := by
  induction l with
  | nil => exact List.Perm.refl _
  | cons x l ih =>
      rw [sortByCountDesc_cons]
      exact (insertDesc_perm x (sortByCountDesc l)).trans (ih.cons x)

theorem sortByCountDesc_pairwise (l : List (String × Nat)) :
    (sortByCountDesc l).Pairwise (fun a b => b.2 ≤ a.2) := by
  induction l with
  | nil => simp [sortByCountDesc]
  | cons x l ih =>
      rw [sortByCountDesc_cons]
      exact pairwise_insertDesc x _ ih

theorem sortByCountDesc_filter (c : Nat) (l : List (String × Nat)) :
    (sortByCountDesc l).filter (fun z => decide (z.2 = c)) =
      l.filter (fun z => decide (z.2 = c)) := by
  induction l with
  | nil => rfl
  | cons x l ih =>
      rw [sortByCountDesc_cons, filter_insertDesc]
      by_cases hx : x.2 = c <;> simp [List.filter_cons, hx, ih]

/-- Shared unfolding: on a mapping-rooted document the extractor is exactly
the traversal started from the empty set. -/
theorem extract_map_eq (fs : YFields) :
    extract_uses_from_workflow (some (.map fs)) = find_uses (.map fs) [] := rfl

/-! ### Claims -/

/-- C1 (counterexample): on the aggregate result `c1_results` both references
have frequency count 1 and `"a@v1"` is lexicographically smaller than
`"b@v1"`, yet the ranking places `"b@v1"` first — ties are not broken by
ascending lexicographic order. -/
theorem ranking_tie_not_lexicographic :
    sorted_actions c1_results = [("b@v1", 1), ("a@v1", 1)] ∧ "a@v1" < "b@v1" := by
  refine ⟨rfl, ?_⟩
  rw [String.lt_iff_toList_lt]
  exact List.Lex.rel (by decide)

/-- C1 (amended): the global frequency ranking orders entries by descending
frequency count and is a permutation of the accumulated count table; entries
with equal counts keep the relative order in which they entered that table
(Python's sort is stable) — ties are not broken lexicographically. -/
theorem ranking_desc_stable_perm
    (results : List (String × List (String × List String))) :
    (sorted_actions results).Pairwise (fun a b => b.2 ≤ a.2) ∧
    (sorted_actions results).Perm (action_counts results) ∧
    ∀ c, (sorted_actions results).filter (fun z => decide (z.2 = c)) =
      (action_counts results).filter (fun z => decide (z.2 = c)) :=
  ⟨sortByCountDesc_pairwise _, sortByCountDesc_perm _,
   fun c => sortByCountDesc_filter c _⟩

/-- C2 (counterexample): with both external tools available and an empty
repository list, `main` prints `"No repositories found!"` and returns
normally — the process exit status is 0, so the run does not end with a
non-zero exit status. -/
theorem empty_repos_exit_status_zero_cex :
    main_run true true [] (fun _ => none) =
      .earlyExit "No repositories found!" 0 ∧
    ¬∃ msg c, main_run true true [] (fun _ => none) = .earlyExit msg c ∧
      c ≠ 0 := by
  refine ⟨rfl, ?_⟩
  rintro ⟨msg, c, heq, hne⟩
  have h0 : MainOutcome.earlyExit "No repositories found!" 0 =
      .earlyExit msg c := heq
  cases h0
  exact hne rfl

/-- C2 (amended): when the repository lister returns an empty sequence the
pipeline exits early with the user-visible message `"No repositories
found!"` but with exit status 0 (a plain `return` from `main`); only the
missing-tool checks exit with the non-zero status 1. -/
theorem empty_repos_early_exit :
    (∀ fetch, main_run true true [] fetch =
      .earlyExit "No repositories found!" 0) ∧
    (∀ git repos fetch, main_run false git repos fetch =
      .earlyExit "Error: 'gh' command not found. Please install GitHub CLI." 1) ∧
    (∀ repos fetch, main_run true false repos fetch =
      .earlyExit "Error: 'git' command not found. Please install Git." 1) :=
  ⟨fun _ => rfl, fun _ _ _ => rfl, fun _ _ => rfl⟩

/-- C3 (counterexample): in `c3_doc` (`{uses: {uses: "x"}}`) every
string-valued `uses` entry lies strictly inside the value of an enclosing
`uses` key, yet extraction returns `{"x"}`, not the empty set: the traversal
does recurse into the non-string value of a `uses` key. -/
theorem uses_under_uses_extracted_cex :
    extract_uses_from_workflow (some c3_doc) = ["x"] ∧
    extract_uses_from_workflow (some c3_doc) ≠ [] := by
  refine ⟨rfl, ?_⟩
  decide

/-- C3 (amended): a `uses` entry's value is recorded only when it is a
scalar string; recursion into an entry's value is skipped only when the key
is `uses` AND the value is a scalar string — in particular the traversal
recurses into non-string values of `uses` keys.  Hence for a mapping-rooted
document the extraction result contains exactly the non-`./` strings that
appear as the value of a `uses` key at any depth, with no restriction on the
keys along the path. -/
theorem extract_characterization (fs : YFields) (s : String) :
    s ∈ extract_uses_from_workflow (some (.map fs)) ↔
      UsesVal (.map fs) s ∧ startswith_local s = false := by
  rw [extract_map_eq]
  constructor
  · intro h
    rcases find_uses_sound _ [] s h with habs | hok
    · cases habs
    · exact hok
  · rintro ⟨hv, hl⟩
    exact UsesVal_complete _ s hv hl []

/-- C4: for every mapping-rooted workflow document, every scalar-string value
of a `uses` key that does not start with `./` and occurs at any nesting depth
(inside mappings and sequences, under keys other than `uses` along the path)
is a member of the extraction result. -/
theorem extract_depth_invariant (fs : YFields) (s : String)
    (h : UsesAt (.map fs) s) (hl : startswith_local s = false) :
    s ∈ extract_uses_from_workflow (some (.map fs)) := by
  rw [extract_map_eq]
  exact UsesVal_complete _ s (UsesAt_UsesVal _ s h) hl []

/-- C4 (witness): the reference of `c4_fields`, nested four levels deep
under `jobs`, `build`, `steps` and a sequence element, is extracted. -/
theorem extract_depth_invariant_witness :
    "actions/checkout@v4" ∈ extract_uses_from_workflow (some (.map c4_fields)) := by
  refine extract_depth_invariant c4_fields "actions/checkout@v4" ?_ (by decide)
  refine UsesAt.inMap (k := "jobs") (v := c4_jobs) (by decide) (by decide) ?_
  refine UsesAt.inMap (k := "build") (v := c4_build) (by decide) (by decide) ?_
  refine UsesAt.inMap (k := "steps") (v := c4_steps) (by decide) (by decide) ?_
  refine UsesAt.inSeq (v := c4_step) (by decide) ?_
  exact UsesAt.here (by decide)

/-- C5: no string in any extraction result starts with the two-character
prefix `./` — a `uses` value beginning with `./` is excluded at every
nesting depth. -/
theorem extract_local_excluded (d : Option Yaml) (s : String)
    (h : s ∈ extract_uses_from_workflow d) : startswith_local s = false := by
  cases d with
  | none => cases h
  | some y =>
      cases y with
      | str t => cases h
      | scalar => cases h
      | map fs =>
          rw [extract_map_eq] at h
          rcases find_uses_sound _ [] s h with habs | hok
          · cases habs
          · exact hok.2
      | seq xs => cases h

/-- C5 (witness): `c5_doc` declares both an external and a `./`-local
reference; the extracted external one does not start with `./` (and indeed
the local one is not extracted at all). -/
theorem extract_local_excluded_witness :
    startswith_local "actions/checkout@v4" = false ∧
    extract_uses_from_workflow (some c5_doc) = ["actions/checkout@v4"] :=
  ⟨extract_local_excluded (some c5_doc) "actions/checkout@v4" (by decide), rfl⟩

/-- C6: extraction results have set semantics — each reference string occurs
at most once in a file's result (the result list is duplicate-free), and the
file `c6_doc`, whose two steps both declare `actions/checkout@v4`, yields
the one-element result. -/
theorem extract_set_semantics :
    (∀ d : Option Yaml, (extract_uses_from_workflow d).Nodup) ∧
    extract_uses_from_workflow (some c6_doc) = ["actions/checkout@v4"] := by
  refine ⟨?_, rfl⟩
  intro d
  cases d with
  | none => exact List.nodup_nil
  | some y =>
      cases y with
      | str t => exact List.nodup_nil
      | scalar => exact List.nodup_nil
      | map fs =>
          rw [extract_map_eq, find_uses_map]
          exact find_uses_fields_nodup fs [] List.nodup_nil
      | seq xs => exact List.nodup_nil

/-- C7 (counterexample): a document that decodes to a top-level sequence
yields the empty reference set, but the per-file warning is not emitted
(only the `except` branch prints it), contradicting the claim that every
non-mapping top level is reported as a recoverable warning. -/
theorem nonmapping_no_warning_cex :
    extract_run (some (Yaml.seq YSeq.nil)) = ([], false) ∧
    (extract_run (some (Yaml.seq YSeq.nil))).2 ≠ true := ⟨rfl, by decide⟩

/-- C7 (amended): a file that fails to decode yields the empty set and the
recoverable per-file warning; a file whose decoded top-level value is not a
mapping yields the empty set silently (no warning).  Neither case is an
error that aborts the run — the extractor is total and processing continues
with the next file. -/
theorem extract_error_handling :
    extract_run none = ([], true) ∧
    ∀ y : Yaml, isDict y = false → extract_run (some y) = ([], false) := by
  refine ⟨rfl, ?_⟩
  intro y hy
  rw [extract_run, hy]
  simp

/-- C7 (witness): a top-level scalar (e.g. a YAML document holding a bare
string or `null`) is not a mapping and yields the silent empty result. -/
theorem extract_error_handling_witness :
    isDict Yaml.scalar = false ∧ extract_run (some Yaml.scalar) = ([], false) :=
  ⟨rfl, extract_error_handling.2 Yaml.scalar rfl⟩

/-- C8: every repository returned by the lister appears as a key of the
aggregate result with a well-defined per-file mapping — the value is exactly
the outcome of processing that repository, and a repository whose fetch
fails is recorded with the empty mapping, never omitted. -/
theorem aggregate_total_keys (repos : List String)
    (fetch : String → Option Repo) (r : String) (h : r ∈ repos) :
    dictLookup (buildResults repos fetch) r = some (processRepo fetch r) ∧
    (fetch r = none → processRepo fetch r = []) := by
  refine ⟨buildResults_lookup repos fetch r h, ?_⟩
  intro hf
  rw [processRepo, hf]

/-- C8 (witness): in the `c8_fetch` scenario the repository `org/b` fails to
clone yet is present in the aggregate result, bound to the empty mapping. -/
theorem aggregate_total_keys_witness :
    dictLookup (buildResults ["org/a", "org/b"] c8_fetch) "org/b" =
      some (processRepo c8_fetch "org/b") ∧
    (c8_fetch "org/b" = none → processRepo c8_fetch "org/b" = []) :=
  aggregate_total_keys ["org/a", "org/b"] c8_fetch "org/b" (by decide)

/-- C9: the document locator returns the empty list for an absent
`.github/workflows` directory; a name is returned exactly when it is the
name of a direct child and ends (case-sensitively) in `.yml` or `.yaml`;
and the result depends only on the names of the direct children — nested
subdirectory contents are never visited. -/
theorem workflow_locator_spec :
    find_workflow_files none = [] ∧
    (∀ (entries : List FSEntry) (n : String),
      n ∈ find_workflow_files (some entries) ↔
        n ∈ entries.map entryName ∧
          (endswith n ".yml" = true ∨ endswith n ".yaml" = true)) ∧
    (∀ e1 e2 : List FSEntry, e1.map entryName = e2.map entryName →
      find_workflow_files (some e1) = find_workflow_files (some e2)) := by
  refine ⟨rfl, ?_, ?_⟩
  · intro entries n
    rw [find_workflow_files_eq, List.mem_filter]
    constructor
    · rintro ⟨hm, hp⟩
      exact ⟨hm, by simpa [is_workflow_name, Bool.or_eq_true] using hp⟩
    · rintro ⟨hm, hp⟩
      exact ⟨hm, by simpa [is_workflow_name, Bool.or_eq_true] using hp⟩
  · intro e1 e2 h
    rw [find_workflow_files_eq, find_workflow_files_eq, h]

/-- C9 (witness): in `c9_entries` the direct child `ci.yml` is located;
and two directories with the same direct-child names but different nested
contents (`c9_sub_a` has a `.yml` file inside its subdirectory, `c9_sub_b`
does not) produce the same list — the locator does not recurse. -/
theorem workflow_locator_spec_witness :
    ("ci.yml" ∈ find_workflow_files (some c9_entries) ↔
      "ci.yml" ∈ c9_entries.map entryName ∧
        (endswith "ci.yml" ".yml" = true ∨ endswith "ci.yml" ".yaml" = true)) ∧
    find_workflow_files (some c9_sub_a) = find_workflow_files (some c9_sub_b) :=
  ⟨workflow_locator_spec.2.1 c9_entries "ci.yml",
   workflow_locator_spec.2.2 c9_sub_a c9_sub_b (by decide)⟩

theorem processRepo_values (fetch : String → Option Repo) (r : String)
    (p : String × List String) (h : p ∈ processRepo fetch r) : p.2 ≠ [] := by
  rw [processRepo] at h
  split at h
  · cases h
  · exact analyze_values _ p h

theorem buildResults_entry_values (repos : List String)
    (fetch : String → Option Repo) (rv : String × List (String × List String))
    (h : rv ∈ buildResults repos fetch) (p : String × List String)
    (hp : p ∈ rv.2) : p.2 ≠ [] := by
  rcases buildResults_values repos fetch rv h with ⟨r, hr⟩
  rw [hr] at hp
  exact processRepo_values fetch r p hp

/-- C10: (1) every value stored in a per-file mapping produced by the
analysis is a non-empty reference set — a workflow file whose extraction
yields zero references is omitted entirely; (2) consequently, on a directory
with distinct child names, the size of the per-file mapping (the summand of
the `Total workflow files found` statistic) equals the number of located
workflow files whose extraction is non-empty; (3) over any aggregate result
the statistic counts exactly the stored files with at least one reference;
and (4) the report branch printing `No external actions` for an empty set is
never taken. -/
theorem per_file_values_nonempty :
    (∀ (dir : Option (List FSEntry)) (p : String × List String),
      p ∈ analyze_repository_workflows dir → p.2 ≠ []) ∧
    (∀ entries : List FSEntry, (entries.map entryName).Nodup →
      (analyze_repository_workflows (some entries)).length =
        (find_workflow_files (some entries)).countP
          (fun n => !(extract_uses_from_workflow (readDoc entries n)).isEmpty)) ∧
    (∀ (repos : List String) (fetch : String → Option Repo),
      total_workflows (buildResults repos fetch) =
        ((buildResults repos fetch).map
          (fun rv => rv.2.countP (fun p => !p.2.isEmpty))).sum) ∧
    (∀ (repos : List String) (fetch : String → Option Repo),
      no_external_count (buildResults repos fetch) = 0) := by
  refine ⟨analyze_values, ?_, ?_, ?_⟩
  · intro entries hn
    exact analyze_length entries (hn.filter _)
  · intro repos fetch
    rw [total_workflows]
    congr 1
    refine List.map_congr_left ?_
    intro rv hrv
    refine (List.countP_eq_length.mpr ?_).symm
    intro p hp
    have hne := buildResults_entry_values repos fetch rv hrv p hp
    have hE : p.2.isEmpty = false := by
      cases hE2 : p.2.isEmpty
      · rfl
      · exact absurd (List.isEmpty_iff.mp hE2) hne
    simp [hE]
  · intro repos fetch
    rw [no_external_count]
    refine List.sum_eq_zero ?_
    intro x hx
    rcases List.mem_map.mp hx with ⟨rv, hrv, hxeq⟩
    rw [← hxeq, List.length_eq_zero, List.filter_eq_nil_iff]
    intro p hp
    have hne := buildResults_entry_values repos fetch rv hrv p hp
    exact fun hc => hne (List.isEmpty_iff.mp hc)

/-- C10 (witness): in `c10_entries`, `a.yml` contributes the non-empty set
`{"actions/cache@v3"}` while the non-mapping `b.yml` is omitted; the
per-file mapping has exactly one entry, matching the count of located files
with non-empty extraction (2 located, 1 non-empty). -/
theorem per_file_values_nonempty_witness :
    (("a.yml", ["actions/cache@v3"]) : String × List String).2 ≠ [] ∧
    (analyze_repository_workflows (some c10_entries)).length =
      (find_workflow_files (some c10_entries)).countP
        (fun n => !(extract_uses_from_workflow (readDoc c10_entries n)).isEmpty) :=
  ⟨per_file_values_nonempty.1 (some c10_entries)
      ("a.yml", ["actions/cache@v3"]) (by decide),
   per_file_values_nonempty.2.1 c10_entries (by decide)⟩
